import Mathlib

/-!
# Task tracker (`server.js`): completion semantics

A shallow embedding of the Mongoose task document and of the Express handlers
`POST /tasks`, `POST /complete` and the progress computation of `GET /`, with the
properties of the assignment / completion logic stated over them.

Conventions of the embedding:

* an `ObjectId` is a natural number; two ids are equal exactly when the numbers are;
* a `Date` is a natural number (milliseconds since the epoch);
* a Mongoose array of `ObjectId` is a `List (Option UserId)`: the element `none` is a
  stored `null` (what `null` and `undefined` elements are cast to), which is no user;
* a submitted element that does not cast to an `ObjectId` (such as the empty string)
  makes `task.save()` reject, and then nothing is stored;
* the database collection is a list of documents; `save` overwrites by `_id`.
-/

namespace TodoApp

abbrev UserId := Nat
abbrev TaskId := Nat
abbrev Time := Nat

/-- One element of an `[ObjectId]` array path: a user reference or `null`. -/
abbrev Ref := Option UserId

/-- The object stored in `req.session.user` by `POST /login` (lines 101-106). -/
structure SessionUser where
  id : UserId
  username : String
  fullName : String
  role : String
deriving DecidableEq, Repr

/-- A document of `taskSchema` (lines 39-53). -/
structure Task where
  id : TaskId
  title : String
  user : UserId
  assignedUsers : List Ref
  completedBy : List Ref
  isDone : Bool
  doneAt : Option Time
  createdAt : Time
deriving DecidableEq, Repr

/-- A value submitted at an element position of `assignedUsers`: `null` (or `undefined`),
a string that casts to the `ObjectId` `id`, or a value that does not cast to one. -/
inductive Value where
  | null
  | oid (id : UserId)
  | bad (s : String)
deriving DecidableEq, Repr

/-- The value of `req.body.assignedUsers`: missing, one value, or an array. -/
inductive Submitted where
  | absent
  | single (v : Value)
  | many (vs : List Value)
deriving DecidableEq, Repr

/-- The body of a `POST /tasks` request. -/
structure TaskBody where
  title : String
  assignedUsers : Submitted
deriving DecidableEq, Repr

/-- `Array.isArray(assignedUsers) ? assignedUsers : [assignedUsers]` (lines 147-149). -/
def Submitted.toArray : Submitted → List Value
  | .absent => [.null]
  | .single v => [v]
  | .many vs => vs

/-- The Mongoose cast of one element to the `ObjectId` element type of the schema
(line 46); `none` is a `CastError`. -/
def Value.cast : Value → Option Ref
  | .null => some none
  | .oid id => some (some id)
  | .bad _ => none

/-- The Mongoose cast of an array to `[ObjectId]`: it fails when an element fails. -/
def castIds : List Value → Option (List Ref)
  | [] => some []
  | v :: vs =>
    match v.cast, castIds vs with
    | some r, some rs => some (r :: rs)
    | _, _ => none

/-- `new Task({ title, user, assignedUsers })`: the remaining paths take their schema
defaults (`completedBy` empty, `isDone` false, `doneAt` unset, `createdAt` now). -/
def newTask (id : TaskId) (title : String) (user : UserId) (assignedUsers : List Ref)
    (now : Time) : Task :=
  { id := id, title := title, user := user, assignedUsers := assignedUsers,
    completedBy := [], isDone := false, doneAt := none, createdAt := now }

/-- The document built by `POST /tasks` for a logged-in user (lines 141-161). An array
that fails to cast leaves the path at its default, the empty array. -/
def createTask (user : SessionUser) (body : TaskBody) (newId : TaskId) (now : Time) : Task :=
  if user.role = "admin" then
    newTask newId body.title user.id ((castIds body.assignedUsers.toArray).getD []) now
  else
    newTask newId body.title user.id [some user.id] now

/-- Whether `task.save()` of the document built by `POST /tasks` rejects: the admin
branch submitted an array that does not cast. -/
def saveRejects (user : SessionUser) (body : TaskBody) : Bool :=
  decide (user.role = "admin") && (castIds body.assignedUsers.toArray).isNone

/-- The handler `POST /tasks` (lines 140-164) as a function on the collection: `isAuth`
leaves it untouched without a session, a rejected `save` stores nothing, otherwise the
new document is saved. -/
def postTasks (db : List Task) (session : Option SessionUser) (body : TaskBody)
    (newId : TaskId) (now : Time) : List Task :=
  match session with
  | none => db
  | some user =>
    if saveRejects user body then db else db ++ [createTask user body newId now]

/-- The body of `POST /complete` on the document that was found (lines 172-181).
`includes` on a Mongoose array compares ids by value and `push` appends the id. -/
def markComplete (task : Task) (userId : UserId) (now : Time) : Task :=
  let task :=
    if task.completedBy.contains (some userId) then task
    else { task with completedBy := task.completedBy ++ [some userId] }
  if task.completedBy.length = task.assignedUsers.length then
    { task with isDone := true, doneAt := some now }
  else task

/-- `Task.findById(taskId)`. -/
def findById (db : List Task) (taskId : TaskId) : Option Task :=
  db.find? (fun t => t.id == taskId)

/-- `task.save()` of a document that was loaded from the collection. -/
def save (db : List Task) (task : Task) : List Task :=
  db.map (fun t => if t.id = task.id then task else t)

/-- The handler `POST /complete` (lines 168-185) as a function on the collection. -/
def postComplete (db : List Task) (session : Option SessionUser) (taskId : TaskId)
    (now : Time) : List Task :=
  match session with
  | none => db
  | some user =>
    match findById db taskId with
    | none => db
    | some task => save db (markComplete task user.id now)

/-- A finite sequence of `POST /complete` calls on one task, each by a user at a time. -/
def markCompleteAll (task : Task) (calls : List (UserId × Time)) : Task :=
  calls.foldl (fun t c => markComplete t c.1 c.2) task

/-- A finite sequence of `POST /complete` requests on the collection, each made in the
session of a logged-in user, for a task id, at a time. -/
def postCompleteAll (db : List Task) (calls : List (SessionUser × TaskId × Time)) :
    List Task :=
  calls.foldl (fun d c => postComplete d (some c.1) c.2.1 c.2.2) db

/-- The requests of a sequence that are for the task `taskId`: the caller and the time. -/
def callsOn (taskId : TaskId) (calls : List (SessionUser × TaskId × Time)) :
    List (UserId × Time) :=
  (calls.filter (fun c => c.2.1 = taskId)).map (fun c => (c.1.id, c.2.2))

/-- Two reference lists hold the same set of user identifiers; a stored `null` is no
user and counts on neither side. -/
def sameSet (a b : List Ref) : Prop := ∀ u : UserId, some u ∈ a ↔ some u ∈ b

instance (a b : List Ref) : Decidable (sameSet a b) :=
  decidable_of_iff ((∀ r ∈ a, r ≠ none → r ∈ b) ∧ (∀ r ∈ b, r ≠ none → r ∈ a))
    ⟨fun h u => ⟨fun hu => h.1 _ hu (by simp), fun hu => h.2 _ hu (by simp)⟩,
      fun h => ⟨fun r hr hn => by
          cases r with
          | none => exact absurd rfl hn
          | some u => exact (h u).1 hr,
        fun r hr hn => by
          cases r with
          | none => exact absurd rfl hn
          | some u => exact (h u).2 hr⟩⟩

/-! ## Progress on the dashboard (`GET /`, lines 125-126)

JavaScript numbers are IEEE 754 binary64 values. A finite double is represented by the
rational it denotes; `/` and `*` are the exact operation followed by rounding to the
nearest double, ties to even. Overflow is outside the model: the operands here are array
lengths (below `2^32`) and the constant 100. -/

/-- Round to the nearest integer, ties to the even one. -/
def roundTiesToEven (q : ℚ) : ℤ :=
  if Int.fract q < 1 / 2 then ⌊q⌋
  else if 1 / 2 < Int.fract q then ⌊q⌋ + 1
  else if ⌊q⌋ % 2 = 0 then ⌊q⌋ else ⌊q⌋ + 1

/-- The double nearest to `x`: 53 significant bits at the binary exponent of `x`, which
is at least -1022 (subnormals). -/
def toDouble (x : ℚ) : ℚ :=
  let e := max (Int.log 2 |x|) (-1022)
  let ulp : ℚ := 2 ^ (e - 52)
  roundTiesToEven (x / ulp) * ulp

/-- The JavaScript `a / b` on doubles, for `b` not zero. -/
def jsDiv (a b : ℚ) : ℚ := toDouble (a / b)

/-- The JavaScript `a * b` on doubles. -/
def jsMul (a b : ℚ) : ℚ := toDouble (a * b)

/-- The function `Math.round`: the nearest integer, halves towards plus infinity. -/
def mathRound (x : ℚ) : ℤ := ⌊x + 1 / 2⌋

/-- The `percent` computed by `GET /` from the tasks it found (lines 125-126):
`tasks.length ? Math.round((done / tasks.length) * 100) : 0`. -/
def percent (tasks : List Task) : ℤ :=
  let done := (tasks.filter (fun t => t.isDone)).length
  if tasks.length ≠ 0 then mathRound (jsMul (jsDiv done tasks.length) 100) else 0

/-- The state of a task all of whose completions came from its assignees. -/
structure Sound (t : Task) : Prop where
  nodup : t.completedBy.Nodup
  sub : t.completedBy ⊆ t.assignedUsers
  done : t.isDone = true ↔ t.completedBy.length = t.assignedUsers.length

/-! ## Sample data -/

def alice : SessionUser := { id := 1, username := "alice", fullName := "Alice", role := "normal" }
def bob : SessionUser := { id := 2, username := "bob", fullName := "Bob", role := "normal" }
def root : SessionUser := { id := 9, username := "root", fullName := "Root", role := "admin" }

/-- A task of alice that she has completed. -/
def doneTask : Task :=
  markComplete (createTask alice { title := "t", assignedUsers := .absent } 0 0) 1 10

/-- A task of alice that is still open. -/
def openTask : Task := createTask alice { title := "t", assignedUsers := .absent } 0 0

/-- Forty tasks of which twenty-three are done. -/
def fortyTasks : List Task := List.replicate 23 doneTask ++ List.replicate 17 openTask

/-! ## Basic facts about `markComplete` -/

theorem markComplete_assignedUsers (t : Task) (u : UserId) (now : Time) :
    (markComplete t u now).assignedUsers = t.assignedUsers := by
  unfold markComplete
  dsimp only
  split_ifs <;> rfl

theorem markComplete_completedBy (t : Task) (u : UserId) (now : Time) :
    (markComplete t u now).completedBy =
      if some u ∈ t.completedBy then t.completedBy else t.completedBy ++ [some u] := by
  unfold markComplete
  dsimp only
  split_ifs <;> simp_all

theorem markComplete_isDone (t : Task) (u : UserId) (now : Time) :
    (markComplete t u now).isDone = true ↔
      t.isDone = true ∨ (markComplete t u now).completedBy.length = t.assignedUsers.length := by
  unfold markComplete
  dsimp only
  split_ifs <;> simp_all

theorem markComplete_doneAt (t : Task) (u : UserId) (now : Time) :
    (markComplete t u now).doneAt =
      if (markComplete t u now).completedBy.length = t.assignedUsers.length then some now
      else t.doneAt := by
  unfold markComplete
  dsimp only
  split_ifs <;> simp_all

theorem markCompleteAll_nil (t : Task) : markCompleteAll t [] = t := rfl

theorem markCompleteAll_cons (t : Task) (c : UserId × Time) (cs : List (UserId × Time)) :
    markCompleteAll t (c :: cs) = markCompleteAll (markComplete t c.1 c.2) cs := rfl

theorem markCompleteAll_snoc (t : Task) (cs : List (UserId × Time)) (c : UserId × Time) :
    markCompleteAll t (cs ++ [c]) = markComplete (markCompleteAll t cs) c.1 c.2 := by
  simp [markCompleteAll, List.foldl_append]

theorem markCompleteAll_assignedUsers (t : Task) (cs : List (UserId × Time)) :
    (markCompleteAll t cs).assignedUsers = t.assignedUsers := by
  induction cs generalizing t with
  | nil => rfl
  | cons c cs ih => rw [markCompleteAll_cons, ih, markComplete_assignedUsers]

/-- The users in `completedBy` after a run are the earlier ones and the callers. -/
theorem mem_markCompleteAll_completedBy (t : Task) (cs : List (UserId × Time)) (r : Ref) :
    r ∈ (markCompleteAll t cs).completedBy ↔
      r ∈ t.completedBy ∨ r ∈ cs.map (fun c => some c.1) := by
  induction cs generalizing t with
  | nil => simp [markCompleteAll_nil]
  | cons c cs ih =>
    rw [markCompleteAll_cons, ih, markComplete_completedBy]
    by_cases h : some c.1 ∈ t.completedBy
    · simp only [h, if_true, List.map_cons, List.mem_cons]
      constructor
      · rintro (h1 | h1)
        · exact Or.inl h1
        · exact Or.inr (Or.inr h1)
      · rintro (h1 | h1 | h1)
        · exact Or.inl h1
        · exact Or.inl (h1 ▸ h)
        · exact Or.inr h1
    · simp only [h, if_false, List.map_cons, List.mem_cons, List.mem_append,
        List.mem_singleton]
      tauto

theorem markComplete_nodup (t : Task) (u : UserId) (now : Time)
    (h : t.completedBy.Nodup) : (markComplete t u now).completedBy.Nodup := by
  rw [markComplete_completedBy]
  split_ifs with hm
  · exact h
  · exact List.Nodup.append h (List.nodup_singleton _) (by simpa using hm)

theorem markCompleteAll_nodup (t : Task) (cs : List (UserId × Time))
    (h : t.completedBy.Nodup) : (markCompleteAll t cs).completedBy.Nodup := by
  induction cs generalizing t with
  | nil => exact h
  | cons c cs ih => exact ih _ (markComplete_nodup t c.1 c.2 h)

/-- A duplicate-free list inside `a` that is as long as `a` covers `a`. -/
theorem subset_of_nodup_length_eq {l a : List Ref} (hl : l.Nodup) (hsub : l ⊆ a)
    (hlen : l.length = a.length) : a ⊆ l :=
  ((List.subperm_of_subset hl hsub).perm_of_length_le (le_of_eq hlen.symm)).symm.subset

theorem length_eq_of_mem_iff {l a : List Ref} (hl : l.Nodup) (ha : a.Nodup)
    (h : ∀ r, r ∈ l ↔ r ∈ a) : l.length = a.length :=
  ((List.perm_ext_iff_of_nodup hl ha).2 h).length_eq

theorem sound_of_fresh {t : Task} (hc : t.completedBy = []) (hd : t.isDone = false)
    (hne : t.assignedUsers ≠ []) : Sound t := by
  refine ⟨by simp [hc], by simp [hc], ?_⟩
  rw [hd, hc]
  constructor
  · intro h; cases h
  · intro h
    exact absurd (List.length_eq_zero.1 h.symm) hne

theorem sound_markComplete {t : Task} (h : Sound t) (u : UserId) (now : Time)
    (hu : some u ∈ t.assignedUsers) : Sound (markComplete t u now) := by
  refine ⟨markComplete_nodup t u now h.nodup, ?_, ?_⟩
  · rw [markComplete_assignedUsers, markComplete_completedBy]
    split_ifs
    · exact h.sub
    · intro r hr
      rcases List.mem_append.1 hr with h1 | h1
      · exact h.sub h1
      · rw [List.mem_singleton.1 h1]; exact hu
  · rw [markComplete_isDone, markComplete_assignedUsers]
    constructor
    · rintro (hd | hl)
      · have hlen := h.done.1 hd
        have hmem : some u ∈ t.completedBy :=
          subset_of_nodup_length_eq h.nodup h.sub hlen hu
        rw [markComplete_completedBy, if_pos hmem]
        exact hlen
      · exact hl
    · exact Or.inr

theorem sound_markCompleteAll {t : Task} (h : Sound t) (cs : List (UserId × Time))
    (hcs : ∀ c ∈ cs, some c.1 ∈ t.assignedUsers) : Sound (markCompleteAll t cs) := by
  induction cs generalizing t with
  | nil => exact h
  | cons c cs ih =>
    rw [markCompleteAll_cons]
    apply ih (sound_markComplete h c.1 c.2 (hcs c (List.mem_cons_self _ _)))
    intro d hd
    rw [markComplete_assignedUsers]
    exact hcs d (List.mem_cons_of_mem _ hd)

/-- In a sound state the task is done exactly when every entry of `assignedUsers`
is in `completedBy`. -/
theorem Sound.isDone_iff_subset {t : Task} (h : Sound t) (ha : t.assignedUsers.Nodup) :
    t.isDone = true ↔ t.assignedUsers ⊆ t.completedBy := by
  rw [h.done]
  constructor
  · intro hlen
    exact subset_of_nodup_length_eq h.nodup h.sub hlen
  · intro hsub
    exact length_eq_of_mem_iff h.nodup ha (fun r => ⟨fun hr => h.sub hr, fun hr => hsub hr⟩)

theorem Sound.isDone_iff_sameSet {t : Task} (h : Sound t) (ha : t.assignedUsers.Nodup)
    (hnn : none ∉ t.assignedUsers) :
    t.isDone = true ↔ sameSet t.completedBy t.assignedUsers := by
  rw [h.isDone_iff_subset ha]
  constructor
  · intro hsub u
    exact ⟨fun hu => h.sub hu, fun hu => hsub hu⟩
  · intro hs r hr
    cases r with
    | none => exact absurd hr hnn
    | some u => exact (hs u).2 hr

theorem createTask_completedBy (user : SessionUser) (body : TaskBody) (newId : TaskId)
    (now : Time) : (createTask user body newId now).completedBy = [] := by
  unfold createTask; split_ifs <;> rfl

theorem createTask_isDone (user : SessionUser) (body : TaskBody) (newId : TaskId)
    (now : Time) : (createTask user body newId now).isDone = false := by
  unfold createTask; split_ifs <;> rfl

theorem createTask_doneAt (user : SessionUser) (body : TaskBody) (newId : TaskId)
    (now : Time) : (createTask user body newId now).doneAt = none := by
  unfold createTask; split_ifs <;> rfl

theorem createTask_assignedUsers (user : SessionUser) (body : TaskBody) (newId : TaskId)
    (now : Time) : (createTask user body newId now).assignedUsers =
      if user.role = "admin" then (castIds body.assignedUsers.toArray).getD []
      else [some user.id] := by
  unfold createTask; split_ifs <;> rfl

theorem createTask_id (user : SessionUser) (body : TaskBody) (newId : TaskId)
    (now : Time) : (createTask user body newId now).id = newId := by
  unfold createTask; split_ifs <;> rfl

theorem markComplete_id (t : Task) (u : UserId) (now : Time) :
    (markComplete t u now).id = t.id := by
  unfold markComplete
  dsimp only
  split_ifs <;> rfl

/-- The user ids of a cast array are the submitted ids. -/
theorem mem_castIds {vs : List Value} {rs : List Ref} (h : castIds vs = some rs)
    (u : UserId) : some u ∈ rs ↔ Value.oid u ∈ vs := by
  induction vs generalizing rs with
  | nil =>
    simp only [castIds, Option.some.injEq] at h
    subst h
    simp
  | cons v vs ih =>
    unfold castIds at h
    cases hv : v.cast with
    | none => rw [hv] at h; simp at h
    | some r =>
      cases hvs : castIds vs with
      | none => rw [hv, hvs] at h; simp at h
      | some rs' =>
        rw [hv, hvs] at h
        simp only [Option.some.injEq] at h
        subst h
        rw [List.mem_cons, List.mem_cons, ih hvs]
        cases v <;> simp [Value.cast] at hv <;> subst hv <;> simp

theorem markComplete_doneAt_isSome {t : Task} (u : UserId) (now : Time)
    (h : t.doneAt.isSome = t.isDone) :
    (markComplete t u now).doneAt.isSome = (markComplete t u now).isDone := by
  unfold markComplete
  dsimp only
  split_ifs <;> simp_all

theorem markCompleteAll_doneAt_isSome {t : Task} (cs : List (UserId × Time))
    (h : t.doneAt.isSome = t.isDone) :
    (markCompleteAll t cs).doneAt.isSome = (markCompleteAll t cs).isDone := by
  induction cs generalizing t with
  | nil => exact h
  | cons c cs ih => exact ih (markComplete_doneAt_isSome c.1 c.2 h)

/-- A repeated call by the same user changes nothing but `doneAt`, which it stamps
again when the lengths agree. -/
theorem markComplete_repeat (t : Task) (u : UserId) (t1 t2 : Time) :
    markComplete (markComplete t u t1) u t2 =
      if (markComplete t u t1).completedBy.length = t.assignedUsers.length then
        { markComplete t u t1 with doneAt := some t2 }
      else markComplete t u t1 := by
  unfold markComplete
  dsimp only
  split_ifs <;> simp_all

/-! ## The handlers on the collection -/

theorem findById_id {db : List Task} {id : TaskId} {t : Task}
    (h : findById db id = some t) : t.id = id := by
  have := List.find?_some h
  simpa using this

theorem findById_save (db : List Task) (new : Task) (id : TaskId) :
    findById (save db new) id =
      if id = new.id then (findById db id).map (fun _ => new) else findById db id := by
  unfold findById save
  induction db with
  | nil => simp
  | cons t db ih =>
    rw [List.map_cons, List.find?_cons, List.find?_cons, ih]
    by_cases h1 : t.id = new.id
    · by_cases h2 : id = new.id
      · simp [h1, h2]
      · have h3 : (new.id == id) = false := by
          simpa using fun h : new.id = id => h2 h.symm
        simp only [h1, if_true, h2, if_false, h3]
    · by_cases h2 : t.id = id
      · have h3 : ¬ id = new.id := fun h => h1 (h2.trans h)
        simp [h1, h2, h3]
      · have h4 : (t.id == id) = false := by simpa using h2
        simp only [h1, if_false, h4]

theorem findById_postComplete (db : List Task) (user : SessionUser) (taskId id : TaskId)
    (now : Time) :
    findById (postComplete db (some user) taskId now) id =
      if id = taskId then (findById db id).map (fun t => markComplete t user.id now)
      else findById db id := by
  unfold postComplete
  dsimp only
  cases hf : findById db taskId with
  | none =>
    dsimp only
    split_ifs with h
    · rw [h, hf]; rfl
    · rfl
  | some task =>
    dsimp only
    have hid : task.id = taskId := findById_id hf
    rw [findById_save, markComplete_id, hid]
    split_ifs with h
    · rw [h, hf]; rfl
    · rfl

theorem callsOn_cons (id : TaskId) (c : SessionUser × TaskId × Time)
    (cs : List (SessionUser × TaskId × Time)) :
    callsOn id (c :: cs) =
      if c.2.1 = id then (c.1.id, c.2.2) :: callsOn id cs else callsOn id cs := by
  unfold callsOn
  by_cases h : c.2.1 = id <;> simp [List.filter_cons, h]

theorem findById_postCompleteAll (db : List Task) (calls : List (SessionUser × TaskId × Time))
    (id : TaskId) :
    findById (postCompleteAll db calls) id =
      (findById db id).map (fun t => markCompleteAll t (callsOn id calls)) := by
  induction calls generalizing db with
  | nil => simp [postCompleteAll, callsOn, markCompleteAll]
  | cons c cs ih =>
    have hstep : postCompleteAll db (c :: cs) =
        postCompleteAll (postComplete db (some c.1) c.2.1 c.2.2) cs := rfl
    rw [hstep, ih, findById_postComplete, callsOn_cons]
    by_cases h : c.2.1 = id
    · rw [if_pos h.symm, if_pos h]
      cases findById db id <;> rfl
    · rw [if_neg (fun h2 => h h2.symm), if_neg h]

/-- The task found under a fresh id after `POST /tasks` is the document built by the
handler, for a logged-in user whose `save` was not rejected. -/
theorem findById_postTasks {db : List Task} {session : Option SessionUser} {body : TaskBody}
    {newId : TaskId} {now : Time} {t0 : Task} (hfresh : findById db newId = none)
    (hcreate : findById (postTasks db session body newId now) newId = some t0) :
    ∃ user, session = some user ∧ saveRejects user body = false ∧
      t0 = createTask user body newId now := by
  cases session with
  | none =>
    simp only [postTasks] at hcreate
    rw [hfresh] at hcreate
    cases hcreate
  | some user =>
    refine ⟨user, rfl, ?_⟩
    simp only [postTasks] at hcreate
    cases hr : saveRejects user body with
    | true =>
      rw [hr] at hcreate
      simp only [if_true] at hcreate
      rw [hfresh] at hcreate
      cases hcreate
    | false =>
      rw [hr] at hcreate
      simp only [Bool.false_eq_true, if_false] at hcreate
      refine ⟨rfl, ?_⟩
      unfold findById at hcreate hfresh
      rw [List.find?_append, hfresh] at hcreate
      simp only [Option.none_or, List.find?_cons, List.find?_nil] at hcreate
      split at hcreate
      · exact (Option.some.inj hcreate).symm
      · cases hcreate

/-- The state of a stored task after requests that, when they are for it, come from its
assignees. -/
theorem sound_after_requests {db : List Task} {session : Option SessionUser}
    {body : TaskBody} {newId : TaskId} {now : Time} {t0 : Task}
    (calls : List (SessionUser × TaskId × Time))
    (hfresh : findById db newId = none)
    (hcreate : findById (postTasks db session body newId now) newId = some t0)
    (hne : t0.assignedUsers ≠ [])
    (hcalls : ∀ c ∈ calls, c.2.1 = newId → some c.1.id ∈ t0.assignedUsers) :
    t0.completedBy = [] ∧ t0.doneAt.isSome = t0.isDone ∧
      Sound (markCompleteAll t0 (callsOn newId calls)) := by
  obtain ⟨user, _, _, ht0⟩ := findById_postTasks hfresh hcreate
  have hc : t0.completedBy = [] := by rw [ht0]; exact createTask_completedBy _ _ _ _
  have hd : t0.isDone = false := by rw [ht0]; exact createTask_isDone _ _ _ _
  have hda : t0.doneAt = none := by rw [ht0]; exact createTask_doneAt _ _ _ _
  refine ⟨hc, by rw [hda, hd]; rfl, ?_⟩
  apply sound_markCompleteAll (sound_of_fresh hc hd hne)
  intro c hc'
  unfold callsOn at hc'
  obtain ⟨d, hd1, rfl⟩ := List.mem_map.1 hc'
  obtain ⟨hd2, hd3⟩ := List.mem_filter.1 hd1
  exact hcalls d hd2 (by simpa using hd3)

/-! ## Claims about assignment and completion -/

/-- C1, as stated, fails: a task assigned to user 1 only, completed by user 2 (who is
logged in but not an assignee), ends with user 2 in `completedBy`. -/
theorem completedBy_not_subset_for_outsider :
    (createTask alice { title := "t", assignedUsers := .absent } 0 0).completedBy = [] ∧
    ¬ ((markCompleteAll (createTask alice { title := "t", assignedUsers := .absent } 0 0)
          [(2, 5)]).completedBy ⊆
        (markCompleteAll (createTask alice { title := "t", assignedUsers := .absent } 0 0)
          [(2, 5)]).assignedUsers) := by
  decide

/-- C1, amended: for every task with an empty `completedBy` and every finite sequence of
`markComplete` calls made by assignees of the task, `completedBy` is a subset of
`assignedUsers` after the calls (hence after every call, each prefix being a sequence). -/
theorem completedBy_subset_of_assignee_calls (t : Task) (calls : List (UserId × Time))
    (hempty : t.completedBy = [])
    (hcalls : ∀ c ∈ calls, some c.1 ∈ t.assignedUsers) :
    (markCompleteAll t calls).completedBy ⊆ (markCompleteAll t calls).assignedUsers := by
  intro r hr
  rw [markCompleteAll_assignedUsers]
  rcases (mem_markCompleteAll_completedBy t calls r).1 hr with h | h
  · rw [hempty] at h; cases h
  · obtain ⟨c, hc, rfl⟩ := List.mem_map.1 h
    exact hcalls c hc

theorem completedBy_subset_of_assignee_calls_witness :
    (markCompleteAll (newTask 0 "t" 9 [some 1, some 2] 0) [(2, 5), (1, 6), (2, 7)]).completedBy ⊆
      (markCompleteAll (newTask 0 "t" 9 [some 1, some 2] 0) [(2, 5), (1, 6), (2, 7)]).assignedUsers :=
  completedBy_subset_of_assignee_calls (newTask 0 "t" 9 [some 1, some 2] 0)
    [(2, 5), (1, 6), (2, 7)] rfl (by decide)

/-- C2, as stated, fails in four reachable states, each shown as the pair (`isDone`,
whether `completedBy` and `assignedUsers` hold the same set of user ids) of the stored
task: (a) a non-assignee completes a one-assignee task: done, sets differ; (b) an admin
assigns the same user twice and that user completes: same sets, not done; (c) an admin
submits an empty list: right after creation same sets, not done; (d) an admin submits
`[null, 1]` and user 1 completes: same sets of user ids, not done. -/
theorem isDone_not_iff_sameSet :
    (findById
        (postCompleteAll (postTasks [] (some alice) { title := "t", assignedUsers := .absent } 0 0)
          [(bob, 0, 5)]) 0).map
      (fun t => (t.isDone, decide (sameSet t.completedBy t.assignedUsers))) =
        some (true, false) ∧
    (findById
        (postCompleteAll
          (postTasks [] (some root) { title := "t", assignedUsers := .many [.oid 1, .oid 1] } 0 0)
          [(alice, 0, 5)]) 0).map
      (fun t => (t.isDone, decide (sameSet t.completedBy t.assignedUsers))) =
        some (false, true) ∧
    (findById (postTasks [] (some root) { title := "t", assignedUsers := .many [] } 0 0) 0).map
      (fun t => (t.isDone, decide (sameSet t.completedBy t.assignedUsers))) =
        some (false, true) ∧
    (findById
        (postCompleteAll
          (postTasks [] (some root) { title := "t", assignedUsers := .many [.null, .oid 1] } 0 0)
          [(alice, 0, 5)]) 0).map
      (fun t => (t.isDone, decide (sameSet t.completedBy t.assignedUsers))) =
        some (false, true) := by
  decide

/-- C2, amended: take a task stored by `POST /tasks` (under a fresh id) whose
`assignedUsers` is non-empty, duplicate-free and holds user ids only (no `null` entry).
After any sequence of `POST /complete` requests on the collection in which every
request for this task is made by one of its assignees, the task is still stored and its
`isDone` is true iff `completedBy` and `assignedUsers` hold the same set of user ids. -/
theorem isDone_iff_sameSet_of_assignee_calls (db : List Task)
    (session : Option SessionUser) (body : TaskBody) (newId : TaskId) (now : Time)
    (t0 : Task) (calls : List (SessionUser × TaskId × Time))
    (hfresh : findById db newId = none)
    (hcreate : findById (postTasks db session body newId now) newId = some t0)
    (hne : t0.assignedUsers ≠ [])
    (hnd : t0.assignedUsers.Nodup)
    (hnn : none ∉ t0.assignedUsers)
    (hcalls : ∀ c ∈ calls, c.2.1 = newId → some c.1.id ∈ t0.assignedUsers) :
    ∃ t, findById (postCompleteAll (postTasks db session body newId now) calls) newId =
        some t ∧
      (t.isDone = true ↔ sameSet t.completedBy t.assignedUsers) := by
  obtain ⟨_, _, hs⟩ := sound_after_requests calls hfresh hcreate hne hcalls
  refine ⟨markCompleteAll t0 (callsOn newId calls), ?_, ?_⟩
  · rw [findById_postCompleteAll, hcreate]; rfl
  · have hA := markCompleteAll_assignedUsers t0 (callsOn newId calls)
    exact hs.isDone_iff_sameSet (by rw [hA]; exact hnd) (by rw [hA]; exact hnn)

theorem isDone_iff_sameSet_of_assignee_calls_witness :
    ∃ t, findById
        (postCompleteAll
          (postTasks [] (some root) { title := "t", assignedUsers := .many [.oid 1, .oid 2] } 0 0)
          [(alice, 0, 5), (bob, 0, 6)]) 0 = some t ∧
      (t.isDone = true ↔ sameSet t.completedBy t.assignedUsers) :=
  isDone_iff_sameSet_of_assignee_calls [] (some root)
    { title := "t", assignedUsers := .many [.oid 1, .oid 2] } 0 0
    (newTask 0 "t" 9 [some 1, some 2] 0) [(alice, 0, 5), (bob, 0, 6)]
    (by decide) (by decide) (by decide) (by decide) (by decide) (by decide)

/-- C3: the failing input evaluated. A one-assignee task is completed by its assignee
at time 10 (`doneAt` becomes 10); the same user posts again at time 20 and `doneAt`
becomes 20. -/
theorem doneAt_restamped_on_repeat :
    (markCompleteAll (createTask alice { title := "t", assignedUsers := .absent } 0 0)
      [(1, 10)]).doneAt = some 10 ∧
    (markCompleteAll (createTask alice { title := "t", assignedUsers := .absent } 0 0)
      [(1, 10), (1, 20)]).doneAt = some 20 := by
  decide

/-- C4: the failing input evaluated on the collection. After alice creates a task and
posts `/complete` at time 10, posting it again at time 20 gives a different collection
(`doneAt` is 20 instead of 10). -/
theorem postComplete_twice_differs :
    postComplete
        (postComplete (postTasks [] (some alice) { title := "t", assignedUsers := .absent } 0 0)
          (some alice) 0 10)
        (some alice) 0 20 ≠
      postComplete (postTasks [] (some alice) { title := "t", assignedUsers := .absent } 0 0)
        (some alice) 0 10 ∧
    (findById
        (postComplete
          (postComplete
            (postTasks [] (some alice) { title := "t", assignedUsers := .absent } 0 0)
            (some alice) 0 10)
          (some alice) 0 20) 0).map (fun t => t.doneAt) = some (some 20) ∧
    (findById
        (postComplete (postTasks [] (some alice) { title := "t", assignedUsers := .absent } 0 0)
          (some alice) 0 10) 0).map (fun t => t.doneAt) = some (some 10) := by
  decide

/-- C6: a `POST /tasks` request in a session whose role is not "admin" stores exactly
one new task, whatever `assignedUsers` was submitted: it is assigned to the session
user alone, created by the session user, with `completedBy` empty and `isDone` false. -/
theorem nonAdmin_create_is_self_assigned (db : List Task) (user : SessionUser)
    (body : TaskBody) (newId : TaskId) (now : Time) (hrole : user.role ≠ "admin") :
    ∃ t, postTasks db (some user) body newId now = db ++ [t] ∧
      t.assignedUsers = [some user.id] ∧ t.user = user.id ∧
      t.completedBy = [] ∧ t.isDone = false := by
  refine ⟨createTask user body newId now, ?_, ?_⟩
  · simp [postTasks, saveRejects, hrole]
  · simp [createTask, hrole, newTask]

theorem nonAdmin_create_is_self_assigned_witness :
    ∃ t, postTasks [] (some alice) { title := "t", assignedUsers := .many [.oid 2, .oid 3] }
          0 0 = [] ++ [t] ∧
      t.assignedUsers = [some alice.id] ∧ t.user = alice.id ∧
      t.completedBy = [] ∧ t.isDone = false :=
  nonAdmin_create_is_self_assigned [] alice
    { title := "t", assignedUsers := .many [.oid 2, .oid 3] } 0 0 (by decide)

/-- C7, as stated, fails: an admin stores a task with `assignedUsers = [null, 1]`, which
is duplicate-free of size 2; user 1, the only user in it, posts `/complete` (twice). The
stored task then has `completedBy = [1]` and `isDone` false, although no assignee is
left who has not marked completion. -/
theorem isDone_false_with_null_entry :
    (findById
        (postTasks [] (some root) { title := "t", assignedUsers := .many [.null, .oid 1] } 0 0)
        0).map (fun t => (t.assignedUsers, decide t.assignedUsers.Nodup)) =
      some ([none, some 1], true) ∧
    (findById
        (postCompleteAll
          (postTasks [] (some root) { title := "t", assignedUsers := .many [.null, .oid 1] } 0 0)
          [(alice, 0, 5)]) 0).map (fun t => (t.completedBy, t.isDone)) =
      some ([some 1], false) ∧
    (findById
        (postCompleteAll
          (postTasks [] (some root) { title := "t", assignedUsers := .many [.null, .oid 1] } 0 0)
          [(alice, 0, 5), (alice, 0, 6)]) 0).map (fun t => (t.completedBy, t.isDone)) =
      some ([some 1], false) := by
  decide

/-- C7, amended: take a task stored by `POST /tasks` (under a fresh id) whose
`assignedUsers` is duplicate-free, of size at least 1 and holds user ids only (no `null`
entry). After any sequence of `POST /complete` requests on the collection in which
every request for this task is made by one of its assignees, the task is still stored,
its `isDone` is true iff every assignee has made a request for it so far, and `doneAt`
is set whenever `isDone` is true. -/
theorem isDone_iff_every_assignee_called (db : List Task)
    (session : Option SessionUser) (body : TaskBody) (newId : TaskId) (now : Time)
    (t0 : Task) (calls : List (SessionUser × TaskId × Time))
    (hfresh : findById db newId = none)
    (hcreate : findById (postTasks db session body newId now) newId = some t0)
    (hsize : 1 ≤ t0.assignedUsers.length)
    (hnd : t0.assignedUsers.Nodup)
    (hnn : none ∉ t0.assignedUsers)
    (hcalls : ∀ c ∈ calls, c.2.1 = newId → some c.1.id ∈ t0.assignedUsers) :
    ∃ t, findById (postCompleteAll (postTasks db session body newId now) calls) newId =
        some t ∧
      (t.isDone = true ↔
        ∀ u : UserId, some u ∈ t0.assignedUsers →
          ∃ c ∈ calls, c.2.1 = newId ∧ c.1.id = u) ∧
      (t.isDone = true → t.doneAt.isSome = true) := by
  have hne : t0.assignedUsers ≠ [] := by
    intro h; rw [h] at hsize; simp at hsize
  obtain ⟨hc, hda, hs⟩ := sound_after_requests calls hfresh hcreate hne hcalls
  have hA := markCompleteAll_assignedUsers t0 (callsOn newId calls)
  have hmem : ∀ u : UserId,
      some u ∈ (markCompleteAll t0 (callsOn newId calls)).completedBy ↔
        ∃ c ∈ calls, c.2.1 = newId ∧ c.1.id = u := by
    intro u
    rw [mem_markCompleteAll_completedBy, hc]
    simp only [List.not_mem_nil, false_or, callsOn, List.map_map, List.mem_map,
      List.mem_filter, Function.comp, Option.some.injEq, decide_eq_true_eq]
    constructor
    · rintro ⟨c, ⟨h1, h2⟩, h3⟩
      exact ⟨c, h1, h2, h3⟩
    · rintro ⟨c, h1, h2, h3⟩
      exact ⟨c, ⟨h1, h2⟩, h3⟩
  refine ⟨markCompleteAll t0 (callsOn newId calls), ?_, ?_, ?_⟩
  · rw [findById_postCompleteAll, hcreate]; rfl
  · rw [hs.isDone_iff_subset (by rw [hA]; exact hnd), hA]
    constructor
    · intro hsub u hu
      exact (hmem u).1 (hsub hu)
    · intro h r hr
      cases r with
      | none => exact absurd hr hnn
      | some u => exact (hmem u).2 (h u hr)
  · intro hd
    rw [markCompleteAll_doneAt_isSome _ hda, hd]

theorem isDone_iff_every_assignee_called_witness :
    (∃ t, findById
          (postCompleteAll
            (postTasks [] (some root) { title := "t", assignedUsers := .many [.oid 1, .oid 2] }
              0 0)
            [(alice, 0, 10), (bob, 0, 20), (bob, 0, 30)]) 0 = some t ∧
        (t.isDone = true ↔
          ∀ u : UserId, some u ∈ (newTask 0 "t" 9 [some 1, some 2] 0).assignedUsers →
            ∃ c ∈ [(alice, (0 : TaskId), (10 : Time)), (bob, 0, 20), (bob, 0, 30)],
              c.2.1 = 0 ∧ c.1.id = u) ∧
        (t.isDone = true → t.doneAt.isSome = true)) ∧
    (findById
        (postCompleteAll
          (postTasks [] (some root) { title := "t", assignedUsers := .many [.oid 1, .oid 2] } 0 0)
          [(alice, 0, 10)]) 0).map (fun t => (t.completedBy, t.isDone, t.doneAt)) =
      some ([some 1], false, none) ∧
    (findById
        (postCompleteAll
          (postTasks [] (some root) { title := "t", assignedUsers := .many [.oid 1, .oid 2] } 0 0)
          [(alice, 0, 10), (bob, 0, 20)]) 0).map (fun t => (t.completedBy, t.isDone, t.doneAt)) =
      some ([some 1, some 2], true, some 20) ∧
    (findById
        (postCompleteAll
          (postTasks [] (some root) { title := "t", assignedUsers := .many [.oid 1, .oid 2] } 0 0)
          [(alice, 0, 10), (bob, 0, 20), (bob, 0, 30)]) 0).map
        (fun t => (t.completedBy, t.isDone)) =
      some ([some 1, some 2], true) :=
  ⟨isDone_iff_every_assignee_called [] (some root)
      { title := "t", assignedUsers := .many [.oid 1, .oid 2] } 0 0
      (newTask 0 "t" 9 [some 1, some 2] 0) [(alice, 0, 10), (bob, 0, 20), (bob, 0, 30)]
      (by decide) (by decide) (by decide) (by decide) (by decide) (by decide),
    by decide, by decide, by decide⟩

/-- C8: a `markComplete` call by any user keeps `completedBy` free of repetitions; hence
after creation and any sequence of calls every user occurs at most once in it. -/
theorem completedBy_stays_duplicate_free :
    (∀ (t : Task) (u : UserId) (now : Time),
      t.completedBy.Nodup → (markComplete t u now).completedBy.Nodup) ∧
    (∀ (user : SessionUser) (body : TaskBody) (newId : TaskId) (now : Time)
      (calls : List (UserId × Time)),
      (markCompleteAll (createTask user body newId now) calls).completedBy.Nodup) := by
  refine ⟨markComplete_nodup, ?_⟩
  intro user body newId now calls
  apply markCompleteAll_nodup
  rw [createTask_completedBy]
  exact List.nodup_nil

theorem completedBy_stays_duplicate_free_witness :
    (markComplete (newTask 0 "t" 9 [some 1, some 2] 0) 1 5).completedBy.Nodup ∧
    (markComplete (markComplete (newTask 0 "t" 9 [some 1, some 2] 0) 1 5) 1 6).completedBy.Nodup :=
  ⟨completedBy_stays_duplicate_free.1 (newTask 0 "t" 9 [some 1, some 2] 0) 1 5 (by decide),
    completedBy_stays_duplicate_free.1 (markComplete (newTask 0 "t" 9 [some 1, some 2] 0) 1 5)
      1 6 (by decide)⟩

/-- C9: in every state reached from a task created by `POST /tasks` (any role, any
submitted value) by any sequence of `markComplete` calls (any users, any times),
`doneAt` has a value iff `isDone` is true. -/
theorem doneAt_set_iff_isDone (user : SessionUser) (body : TaskBody) (newId : TaskId)
    (now : Time) (calls : List (UserId × Time)) :
    (markCompleteAll (createTask user body newId now) calls).doneAt.isSome = true ↔
      (markCompleteAll (createTask user body newId now) calls).isDone = true := by
  rw [markCompleteAll_doneAt_isSome calls]
  rw [createTask_doneAt, createTask_isDone]
  rfl

/-- The failure path of `POST /tasks`: an admin submitting the empty string, which does
not cast to an `ObjectId`, has `save` rejected and nothing is stored. -/
theorem admin_uncastable_value_stores_nothing :
    postTasks [] (some root) { title := "t", assignedUsers := .single (.bad "") } 0 0 = [] := by
  decide

/-- C10, as stated, fails: an admin submitting the empty list gets a task stored whose
`assignedUsers` is empty; an admin submitting no value gets a task stored whose
`assignedUsers` is `[null]`, which holds no user. -/
theorem admin_stores_unassigned_task :
    postTasks [] (some root) { title := "t", assignedUsers := .many [] } 0 0 =
      [newTask 0 "t" 9 [] 0] ∧
    (newTask 0 "t" 9 [] 0).assignedUsers = [] ∧
    postTasks [] (some root) { title := "t", assignedUsers := .absent } 0 0 =
      [newTask 0 "t" 9 [none] 0] := by
  decide

/-- C10, amended: for every collection, logged-in user and submitted `assignedUsers`
value, either `POST /tasks` stores nothing, or it stores one new task, and the
`assignedUsers` of that task holds at least one user id exactly when the role is not
"admin" or the submitted value holds a user id. An admin whose submitted value holds no
user id (the empty list, an absent or `null` value, a list of `null`s) gets a task
stored that is assigned to no user. -/
theorem create_assigns_user_iff (db : List Task) (user : SessionUser)
    (body : TaskBody) (newId : TaskId) (now : Time) :
    postTasks db (some user) body newId now = db ∨
    ∃ t, postTasks db (some user) body newId now = db ++ [t] ∧
      ((∃ u : UserId, some u ∈ t.assignedUsers) ↔
        (user.role ≠ "admin" ∨ ∃ u : UserId, Value.oid u ∈ body.assignedUsers.toArray)) := by
  cases hr : saveRejects user body with
  | true => left; simp [postTasks, hr]
  | false =>
    right
    refine ⟨createTask user body newId now, by simp [postTasks, hr], ?_⟩
    rw [createTask_assignedUsers]
    by_cases h : user.role = "admin"
    · rw [if_pos h]
      cases hc : castIds body.assignedUsers.toArray with
      | none => simp [saveRejects, h, hc] at hr
      | some rs =>
        simp only [Option.getD_some, ne_eq, h, not_true_eq_false, false_or]
        exact exists_congr (fun u => mem_castIds hc u)
    · rw [if_neg h]
      simp [h]

/-! ## The progress computation -/

theorem roundTiesToEven_cases (q : ℚ) :
    roundTiesToEven q = ⌊q⌋ ∧ Int.fract q ≤ 1 / 2 ∨
      roundTiesToEven q = ⌊q⌋ + 1 ∧ 1 / 2 ≤ Int.fract q := by
  unfold roundTiesToEven
  split_ifs with h1 h2 h3
  · exact Or.inl ⟨rfl, le_of_lt h1⟩
  · exact Or.inr ⟨rfl, le_of_lt h2⟩
  · exact Or.inl ⟨rfl, not_lt.1 h2⟩
  · exact Or.inr ⟨rfl, not_lt.1 h1⟩

theorem roundTiesToEven_abs_sub_le (q : ℚ) : |(roundTiesToEven q : ℚ) - q| ≤ 1 / 2 := by
  have hf := Int.self_sub_floor q
  have h0 := Int.fract_nonneg q
  have h1 := Int.fract_lt_one q
  rw [abs_le]
  rcases roundTiesToEven_cases q with ⟨h, hh⟩ | ⟨h, hh⟩
  · rw [h]; constructor <;> linarith
  · rw [h]; push_cast; constructor <;> linarith

theorem roundTiesToEven_le_of_le (q : ℚ) (N : ℤ) (h : q ≤ N) : roundTiesToEven q ≤ N := by
  have hfl : ⌊q⌋ ≤ N := Int.floor_le_floor h |>.trans (le_of_eq (Int.floor_intCast N))
  rcases roundTiesToEven_cases q with ⟨h1, _⟩ | ⟨h1, hh⟩
  · rw [h1]; exact hfl
  · rw [h1]
    rcases lt_or_eq_of_le hfl with hlt | heq
    · omega
    · exfalso
      have hq : q = N := le_antisymm h (by rw [← heq]; exact Int.floor_le q)
      rw [hq, Int.fract_intCast] at hh
      norm_num at hh

theorem le_roundTiesToEven_of_le (q : ℚ) (N : ℤ) (h : (N : ℚ) ≤ q) : N ≤ roundTiesToEven q := by
  have hfl : N ≤ ⌊q⌋ := Int.le_floor.2 h
  rcases roundTiesToEven_cases q with ⟨h1, _⟩ | ⟨h1, _⟩ <;> rw [h1] <;> omega


theorem exponent_le {x : ℚ} {E : ℤ} (h0 : 0 ≤ x) (hE : 0 ≤ E) (hx : x < 2 ^ (E + 1)) :
    max (Int.log 2 |x|) (-1022) ≤ E := by
  rw [abs_of_nonneg h0]
  apply max_le _ (by omega)
  rcases eq_or_lt_of_le h0 with h | h
  · rw [← h, Int.log_zero_right]; exact hE
  · have : Int.log 2 x < E + 1 := by
      rw [← Int.lt_zpow_iff_log_lt (by norm_num) h]
      exact_mod_cast hx
    omega

theorem toDouble_abs_sub_le (x : ℚ) (E : ℤ) (hE : max (Int.log 2 |x|) (-1022) ≤ E) :
    |toDouble x - x| ≤ 2 ^ (E - 53) := by
  unfold toDouble
  dsimp only
  generalize max (Int.log 2 |x|) (-1022) = e at hE
  have hpos : (0 : ℚ) < 2 ^ (e - 52) := zpow_pos (by norm_num) _
  have hrw : (roundTiesToEven (x / 2 ^ (e - 52)) : ℚ) * 2 ^ (e - 52) - x =
      ((roundTiesToEven (x / 2 ^ (e - 52)) : ℚ) - x / 2 ^ (e - 52)) * 2 ^ (e - 52) := by
    field_simp
  rw [hrw, abs_mul, abs_of_pos hpos]
  calc |(roundTiesToEven (x / 2 ^ (e - 52)) : ℚ) - x / 2 ^ (e - 52)| * 2 ^ (e - 52)
      ≤ 1 / 2 * 2 ^ (e - 52) :=
        mul_le_mul_of_nonneg_right (roundTiesToEven_abs_sub_le _) hpos.le
    _ = 2 ^ (e - 53) := by
        have : e - 52 = (e - 53) + 1 := by ring
        rw [this, zpow_add₀ (by norm_num : (2 : ℚ) ≠ 0), zpow_one]
        ring
    _ ≤ 2 ^ (E - 53) := zpow_le_zpow_right₀ (by norm_num) (by omega)

theorem toDouble_nonneg {x : ℚ} (h0 : 0 ≤ x) : 0 ≤ toDouble x := by
  unfold toDouble
  dsimp only
  generalize max (Int.log 2 |x|) (-1022) = e
  have hpos : (0 : ℚ) < 2 ^ (e - 52) := zpow_pos (by norm_num) _
  have h : (0 : ℤ) ≤ roundTiesToEven (x / 2 ^ (e - 52)) :=
    le_roundTiesToEven_of_le _ 0 (by simpa using div_nonneg h0 hpos.le)
  exact mul_nonneg (by exact_mod_cast h) hpos.le

theorem toDouble_le_natCast {x : ℚ} (N : ℕ) (hx : x ≤ N)
    (hE : max (Int.log 2 |x|) (-1022) ≤ 52) : toDouble x ≤ N := by
  unfold toDouble
  dsimp only
  generalize max (Int.log 2 |x|) (-1022) = e at hE
  have hpos : (0 : ℚ) < 2 ^ (e - 52) := zpow_pos (by norm_num) _
  obtain ⟨d, hd⟩ : ∃ d : ℕ, e - 52 = -(d : ℤ) := ⟨(52 - e).toNat, by omega⟩
  have hulp : (2 : ℚ) ^ (e - 52) = 1 / 2 ^ d := by
    rw [hd, zpow_neg, zpow_natCast, one_div]
  have hle : x / 2 ^ (e - 52) ≤ ((N * 2 ^ d : ℕ) : ℤ) := by
    rw [hulp]
    push_cast
    have h2 : (0 : ℚ) < 2 ^ d := pow_pos (by norm_num) _
    rw [div_div_eq_mul_div, div_one]
    exact mul_le_mul_of_nonneg_right hx h2.le
  have h := roundTiesToEven_le_of_le _ _ hle
  have hq : (roundTiesToEven (x / 2 ^ (e - 52)) : ℚ) ≤ ((N * 2 ^ d : ℕ) : ℤ) := by
    exact_mod_cast h
  calc (roundTiesToEven (x / 2 ^ (e - 52)) : ℚ) * 2 ^ (e - 52)
      ≤ ((N * 2 ^ d : ℕ) : ℤ) * 2 ^ (e - 52) := mul_le_mul_of_nonneg_right hq hpos.le
    _ = N := by
        rw [hulp]
        push_cast
        field_simp


/-- The double computed for `(k / n) * 100` lies in `[0, 100]` and within `2^-45` of the
exact value. -/
theorem jsMul_jsDiv_bounds (k n : ℕ) (hn : 0 < n) (hk : k ≤ n) :
    0 ≤ jsMul (jsDiv k n) 100 ∧ jsMul (jsDiv k n) 100 ≤ 100 ∧
      |jsMul (jsDiv k n) 100 - 100 * k / n| ≤ 1 / 2 ^ 45 := by
  have hnq : (0 : ℚ) < n := by exact_mod_cast hn
  have hx0 : (0 : ℚ) ≤ (k : ℚ) / n := div_nonneg (by positivity) hnq.le
  have hx1 : (k : ℚ) / n ≤ 1 := by
    rw [div_le_one hnq]; exact_mod_cast hk
  have he1 : max (Int.log 2 |(k : ℚ) / n|) (-1022) ≤ 0 :=
    exponent_le hx0 le_rfl (by norm_num; linarith)
  have hd0 : 0 ≤ jsDiv k n := toDouble_nonneg hx0
  have hd1 : jsDiv k n ≤ 1 := by
    have := toDouble_le_natCast 1 (by simpa using hx1) (he1.trans (by norm_num))
    simpa [jsDiv] using this
  have hderr : |jsDiv k n - (k : ℚ) / n| ≤ 1 / 2 ^ 53 := by
    have := toDouble_abs_sub_le _ 0 he1
    norm_num at this
    simpa [jsDiv] using this
  have hy0 : 0 ≤ jsDiv k n * 100 := by linarith
  have hy1 : jsDiv k n * 100 ≤ 100 := by linarith
  have he2 : max (Int.log 2 |jsDiv k n * 100|) (-1022) ≤ 6 :=
    exponent_le hy0 (by norm_num) (by norm_num; linarith)
  have hz0 : 0 ≤ jsMul (jsDiv k n) 100 := toDouble_nonneg hy0
  have hz1 : jsMul (jsDiv k n) 100 ≤ 100 := by
    have := toDouble_le_natCast 100 (by simpa using hy1) (he2.trans (by norm_num))
    simpa [jsMul] using this
  have hzerr : |jsMul (jsDiv k n) 100 - jsDiv k n * 100| ≤ 1 / 2 ^ 47 := by
    have := toDouble_abs_sub_le _ 6 he2
    norm_num at this
    simpa [jsMul] using this
  refine ⟨hz0, hz1, ?_⟩
  rw [abs_le] at hderr hzerr ⊢
  have hw : (100 : ℚ) * k / n = 100 * ((k : ℚ) / n) := by ring
  rw [hw]
  constructor <;> norm_num at hderr hzerr ⊢ <;> linarith [hderr.1, hderr.2, hzerr.1, hzerr.2]


/-- Rounding the computed double gives an integer in `[0, 100]` that is nearest to the
exact percentage, and the half-up rounding of it away from exact halves. -/
theorem mathRound_jsMul_jsDiv (k n : ℕ) (hn : 0 < n) (hk : k ≤ n) (hlen : n < 2 ^ 32) :
    0 ≤ mathRound (jsMul (jsDiv k n) 100) ∧ mathRound (jsMul (jsDiv k n) 100) ≤ 100 ∧
      |(mathRound (jsMul (jsDiv k n) 100) : ℚ) - 100 * k / n| ≤ 1 / 2 ∧
      (Int.fract ((100 : ℚ) * k / n) ≠ 1 / 2 →
        mathRound (jsMul (jsDiv k n) 100) = ⌊(100 : ℚ) * k / n + 1 / 2⌋) := by
  obtain ⟨hz0, hz1, hzerr⟩ := jsMul_jsDiv_bounds k n hn hk
  generalize jsMul (jsDiv k n) 100 = z at hz0 hz1 hzerr
  unfold mathRound
  have hnq : (0 : ℚ) < n := by exact_mod_cast hn
  have hnlt : (n : ℚ) < 2 ^ 32 := by exact_mod_cast hlen
  have hfl := Int.floor_le (z + 1 / 2)
  have hlt := Int.lt_floor_add_one (z + 1 / 2)
  generalize ⌊z + 1 / 2⌋ = r at hfl hlt
  rw [abs_le] at hzerr
  obtain ⟨he1, he2⟩ := hzerr
  have hW : (100 : ℚ) * k / n * n = 100 * k := by field_simp
  generalize (100 : ℚ) * k / n = W at he1 he2 hW
  -- the integer `2 n r - 200 k` lies in `[-n, n]`
  have hT1 : (2 * n * r - 200 * k : ℤ) < n + 1 := by
    have h : ((2 * n * r - 200 * k : ℤ) : ℚ) < ((n + 1 : ℤ) : ℚ) := by
      push_cast
      have h1 : (r : ℚ) - W ≤ 1 / 2 + 1 / 2 ^ 45 := by linarith
      have h2 : 2 * (n : ℚ) * ((r : ℚ) - W) ≤ 2 * n * (1 / 2 + 1 / 2 ^ 45) :=
        mul_le_mul_of_nonneg_left h1 (by positivity)
      have h3 : 2 * (n : ℚ) * ((r : ℚ) - W) = 2 * n * r - 200 * k := by
        rw [mul_sub, mul_assoc 2 (n : ℚ) W, mul_comm (n : ℚ) W, hW]; ring
      norm_num at h2 ⊢
      linarith
    exact_mod_cast h
  have hT2 : -(n : ℤ) - 1 < (2 * n * r - 200 * k : ℤ) := by
    have h : ((-(n : ℤ) - 1 : ℤ) : ℚ) < ((2 * n * r - 200 * k : ℤ) : ℚ) := by
      push_cast
      have h1 : -(1 / 2 + 1 / 2 ^ 45) ≤ (r : ℚ) - W := by linarith
      have h2 : 2 * (n : ℚ) * -(1 / 2 + 1 / 2 ^ 45) ≤ 2 * n * ((r : ℚ) - W) :=
        mul_le_mul_of_nonneg_left h1 (by positivity)
      have h3 : 2 * (n : ℚ) * ((r : ℚ) - W) = 2 * n * r - 200 * k := by
        rw [mul_sub, mul_assoc 2 (n : ℚ) W, mul_comm (n : ℚ) W, hW]; ring
      norm_num at h2 ⊢
      linarith
    exact_mod_cast h
  have hTq : (2 * (n : ℚ) * r - 200 * k) = 2 * n * ((r : ℚ) - W) := by
    rw [mul_sub, mul_assoc 2 (n : ℚ) W, mul_comm (n : ℚ) W, hW]; ring
  have hU : 2 * (n : ℚ) * ((r : ℚ) - W) ≤ n := by
    rw [← hTq]
    have : (2 * n * r - 200 * k : ℤ) ≤ n := by omega
    exact_mod_cast this
  have hL : -(n : ℚ) ≤ 2 * (n : ℚ) * ((r : ℚ) - W) := by
    rw [← hTq]
    have : -(n : ℤ) ≤ (2 * n * r - 200 * k : ℤ) := by omega
    exact_mod_cast this
  have hnear1 : (r : ℚ) - W ≤ 1 / 2 := by
    by_contra hc
    push_neg at hc
    have := mul_lt_mul_of_pos_left hc (by positivity : (0 : ℚ) < 2 * n)
    linarith
  have hnear2 : -(1 / 2) ≤ (r : ℚ) - W := by
    by_contra hc
    push_neg at hc
    have := mul_lt_mul_of_pos_left hc (by positivity : (0 : ℚ) < 2 * n)
    linarith
  refine ⟨?_, ?_, abs_le.2 ⟨hnear2, hnear1⟩, ?_⟩
  · have : (-1 : ℚ) < r := by linarith
    have : (-1 : ℤ) < r := by exact_mod_cast this
    omega
  · have : (r : ℚ) < 101 := by linarith
    have : r < 101 := by exact_mod_cast this
    omega
  · intro hfr
    symm
    rw [Int.floor_eq_iff]
    refine ⟨by linarith, ?_⟩
    rcases lt_or_eq_of_le hnear2 with h | h
    · linarith
    · exfalso
      apply hfr
      have hWr : W = (r : ℚ) + 1 / 2 := by linarith
      rw [hWr, Int.fract_int_add, Int.fract_eq_iff]
      exact ⟨by norm_num, by norm_num, 0, by norm_num⟩


theorem log2_eq_of_bounds {r : ℚ} {e : ℤ} (h0 : 0 < r) (hlo : 2 ^ e ≤ r)
    (hhi : r < 2 ^ (e + 1)) : Int.log 2 r = e := by
  apply le_antisymm
  · have : Int.log 2 r < e + 1 := by
      rw [← Int.lt_zpow_iff_log_lt (by norm_num) h0]
      exact_mod_cast hhi
    omega
  · rw [← Int.zpow_le_iff_le_log (by norm_num) h0]
    exact_mod_cast hlo

theorem roundTiesToEven_eq_of_lt_half {q : ℚ} {m : ℤ} (hlo : (m : ℚ) ≤ q)
    (hhi : q < m + 1 / 2) : roundTiesToEven q = m := by
  have hfl : ⌊q⌋ = m := by
    rw [Int.floor_eq_iff]; exact ⟨hlo, by linarith⟩
  have hfr : Int.fract q < 1 / 2 := by
    rw [Int.fract, hfl]; linarith
  unfold roundTiesToEven
  rw [if_pos hfr, hfl]

theorem toDouble_eq_of_lt_half {x : ℚ} {e m : ℤ} (h0 : 0 < x) (he : -1022 ≤ e)
    (hlo : 2 ^ e ≤ x) (hhi : x < 2 ^ (e + 1))
    (hmlo : (m : ℚ) ≤ x / 2 ^ (e - 52)) (hmhi : x / 2 ^ (e - 52) < m + 1 / 2) :
    toDouble x = m * 2 ^ (e - 52) := by
  unfold toDouble
  dsimp only
  rw [abs_of_pos h0, log2_eq_of_bounds h0 hlo hhi, max_eq_left he,
    roundTiesToEven_eq_of_lt_half hmlo hmhi]

theorem jsDiv_23_40 : jsDiv 23 40 = 5179139571476070 / 2 ^ 53 := by
  unfold jsDiv
  have h := toDouble_eq_of_lt_half (x := 23 / 40) (e := -1) (m := 5179139571476070)
    (by norm_num) (by norm_num) (by norm_num) (by norm_num) (by norm_num) (by norm_num)
  rw [h]; norm_num

theorem jsMul_jsDiv_23_40 : jsMul (jsDiv 23 40) 100 = 8092405580431359 / 2 ^ 47 := by
  rw [jsDiv_23_40]
  unfold jsMul
  have h := toDouble_eq_of_lt_half (x := 5179139571476070 / 2 ^ 53 * 100) (e := 5)
    (m := 8092405580431359)
    (by norm_num) (by norm_num) (by norm_num) (by norm_num) (by norm_num) (by norm_num)
  rw [h]; norm_num

theorem fortyTasks_length : fortyTasks.length = 40 := by decide

theorem fortyTasks_done :
    (fortyTasks.filter (fun t => t.isDone)).length = 23 := by decide

/-- C5, as stated, fails: for forty tasks of which twenty-three are done the handler
computes `(23 / 40) * 100` in doubles, which is 57.49999999999999..., and rounds it to 57,
while `100 * 23 / 40 = 57.5` rounds half-up to 58. -/
theorem percent_fortyTasks_is_57 :
    fortyTasks.length = 40 ∧ (fortyTasks.filter (fun t => t.isDone)).length = 23 ∧
      percent fortyTasks = 57 ∧ ⌊(100 : ℚ) * 23 / 40 + 1 / 2⌋ = 58 := by
  refine ⟨fortyTasks_length, fortyTasks_done, ?_, ?_⟩
  · unfold percent
    dsimp only
    rw [fortyTasks_length, fortyTasks_done, if_pos (by norm_num)]
    have h := jsMul_jsDiv_23_40
    norm_num at h
    unfold mathRound
    norm_num
    rw [h, Int.floor_eq_iff]
    norm_num
  · rw [Int.floor_eq_iff]
    norm_num

/-- C5, amended: the progress is 0 for an empty task list; for every list of `n > 0`
tasks (`n` below the array length limit `2^32`) of which `k` are done it is an integer
nearest to `100*k/n` (at distance at most 1/2), equal to `100*k/n` rounded half-up
whenever `100*k/n` is not exactly halfway between two integers; in every case it is an
integer in `[0, 100]`. -/
theorem percent_is_nearest (tasks : List Task) (hlen : tasks.length < 2 ^ 32) :
    percent [] = 0 ∧ 0 ≤ percent tasks ∧ percent tasks ≤ 100 ∧
      (0 < tasks.length →
        |(percent tasks : ℚ) -
            100 * (tasks.filter (fun t => t.isDone)).length / tasks.length| ≤ 1 / 2 ∧
        (Int.fract ((100 : ℚ) * (tasks.filter (fun t => t.isDone)).length / tasks.length)
            ≠ 1 / 2 →
          percent tasks =
            ⌊(100 : ℚ) * (tasks.filter (fun t => t.isDone)).length / tasks.length
              + 1 / 2⌋)) := by
  refine ⟨rfl, ?_⟩
  by_cases hn : tasks.length = 0
  · have h0 : percent tasks = 0 := by
      unfold percent
      dsimp only
      rw [if_neg (by simpa using hn)]
    rw [h0]
    exact ⟨le_rfl, by norm_num, fun h => absurd hn (Nat.pos_iff_ne_zero.1 h)⟩
  · have hp : percent tasks =
        mathRound (jsMul (jsDiv (tasks.filter (fun t => t.isDone)).length tasks.length) 100) := by
      unfold percent
      dsimp only
      rw [if_pos hn]
    obtain ⟨h1, h2, h3, h4⟩ := mathRound_jsMul_jsDiv
      (tasks.filter (fun t => t.isDone)).length tasks.length (Nat.pos_of_ne_zero hn)
      (List.length_filter_le _ _) hlen
    rw [hp]
    exact ⟨h1, h2, fun _ => ⟨h3, h4⟩⟩

theorem percent_is_nearest_witness :
    percent [] = 0 ∧ 0 ≤ percent [doneTask, openTask, openTask] ∧
      percent [doneTask, openTask, openTask] ≤ 100 ∧
      (0 < [doneTask, openTask, openTask].length →
        |(percent [doneTask, openTask, openTask] : ℚ) -
            100 * ([doneTask, openTask, openTask].filter (fun t => t.isDone)).length /
              [doneTask, openTask, openTask].length| ≤ 1 / 2 ∧
        (Int.fract ((100 : ℚ) *
              ([doneTask, openTask, openTask].filter (fun t => t.isDone)).length /
              [doneTask, openTask, openTask].length) ≠ 1 / 2 →
          percent [doneTask, openTask, openTask] =
            ⌊(100 : ℚ) * ([doneTask, openTask, openTask].filter (fun t => t.isDone)).length /
              [doneTask, openTask, openTask].length + 1 / 2⌋)) :=
  percent_is_nearest [doneTask, openTask, openTask] (by decide)

end TodoApp
